import Mathlib

/-!
Verification of the reverse-annealing notebook's local computations.

The notebook's own code (as opposed to vendor SDK calls) consists of a few
small pure computations over result sets returned by the sampler: Hamming
distances between consecutive samples, descriptive statistics in `analyze`,
the `flip_bits` helper, the inline `pause_schedule`, and the index `i5`
selecting the reverse-anneal initial state.  This file embeds those
computations and proves the specification's claims about them.

Result sets are embedded as lists of records; each record carries the
sample (a spin per variable), its energy and its occurrence count, matching
the `answer.record` fields the notebook reads.  Energies are embedded as
rationals and spins as integers.
-/

set_option autoImplicit false

namespace ReverseAnnealing

/-- One record of a result set, mirroring the fields of `answer.record`
read by the notebook: the sample (one spin per variable), its energy, and
the number of reads that produced it. -/
structure Rec where
  sample : List ℤ
  energy : ℚ
  num_occurrences : ℕ
deriving DecidableEq

/-- A result set returned by `sampler.sample_ising`: the sequence of
records. -/
structure SampleSet where
  record : List Rec
deriving DecidableEq

/-- Source: `get_hamming_distance = lambda x1, x2: np.sum(x1 != x2)`.
Counts the positions at which the two equal-length sample arrays differ
(elementwise comparison of the two arrays, then a sum of the mismatches). -/
def get_hamming_distance (x1 x2 : List ℤ) : ℕ :=
  (List.zip x1 x2).countP (fun p => decide (p.1 ≠ p.2))

/-- Source: `get_hamming_distances(sols)` returns
`np.array([get_hamming_distance(x1, x2) for x1, x2 in zip(sols, sols[1:])])`. -/
def get_hamming_distances (sols : List (List ℤ)) : List ℕ :=
  List.zipWith get_hamming_distance sols sols.tail

/-- The number of variable positions at which two samples differ, written
directly from the specification's words: the count of indices `j` of the
first sample at which the two samples hold different values. -/
def diff_positions (x1 x2 : List ℤ) : ℕ :=
  ((List.range x1.length).filter
    (fun j => decide (x1.getD j 0 ≠ x2.getD j 0))).length

theorem get_hamming_distance_eq_diff_positions :
    ∀ (x1 x2 : List ℤ), x1.length = x2.length →
      get_hamming_distance x1 x2 = diff_positions x1 x2
  | [], [], _ => rfl
  | [], _ :: _, h => by simp at h
  | _ :: _, [], h => by simp at h
  | a :: x1, b :: x2, h => by
      have hlen : x1.length = x2.length := by simpa using h
      have ih := get_hamming_distance_eq_diff_positions x1 x2 hlen
      unfold get_hamming_distance diff_positions at ih ⊢
      simp only [List.zip_cons_cons, List.countP_cons, List.length_cons,
        List.range_succ_eq_map, List.filter_cons, List.getD_cons_zero,
        List.getD_cons_succ, List.filter_map, List.length_map]
      have hcong :
          (List.range x1.length).filter
              ((fun j => decide (x1.getD j 0 ≠ x2.getD j 0))) =
            (List.range x1.length).filter
              ((fun j => decide ((a :: x1).getD j 0 ≠ (b :: x2).getD j 0)) ∘
                Nat.succ) := by
        apply List.filter_congr
        intro j _
        simp [List.getD_cons_succ]
      rw [← hcong, ih]
      by_cases hab : a = b <;> simp [hab, Nat.add_comm]

theorem get_hamming_distances_length (sols : List (List ℤ)) :
    (get_hamming_distances sols).length = sols.length - 1 := by
  unfold get_hamming_distances
  rw [List.length_zipWith, List.length_tail]
  omega

theorem get_hamming_distances_getD :
    ∀ (sols : List (List ℤ)) (i : ℕ), i + 1 < sols.length →
      (get_hamming_distances sols).getD i 0 =
        get_hamming_distance (sols.getD i []) (sols.getD (i + 1) [])
  | [], i, h => by simp at h
  | [_], i, h => by simp at h
  | x :: y :: rest, 0, _ => by
      simp [get_hamming_distances]
  | x :: y :: rest, i + 1, h => by
      have h' : i + 1 < (y :: rest).length := by
        simpa using Nat.lt_of_succ_lt_succ h
      have ih := get_hamming_distances_getD (y :: rest) i h'
      simpa [get_hamming_distances] using ih

theorem getD_mem_of_lt {α : Type} (l : List α) (i : ℕ) (d : α)
    (h : i < l.length) : l.getD i d ∈ l := by
  rw [List.getD_eq_getElem l d h]
  exact List.getElem_mem h

/-- C1: for every sequence of n ≥ 1 returned samples (all over the same
variable set, hence of equal length), `get_hamming_distances` returns a
sequence of exactly n - 1 values whose i-th element is the number of
variable positions at which consecutive samples i and i+1 differ. -/
theorem c1_get_hamming_distances_spec (sols : List (List ℤ)) (n : ℕ)
    (hn : sols.length = n) (hpos : 1 ≤ n)
    (hlen : ∀ x ∈ sols, ∀ y ∈ sols, x.length = y.length) :
    (get_hamming_distances sols).length = n - 1 ∧
    ∀ i, i < n - 1 →
      (get_hamming_distances sols).getD i 0 =
        diff_positions (sols.getD i []) (sols.getD (i + 1) []) := by
  constructor
  · rw [get_hamming_distances_length, hn]
  · intro i hi
    have hi1 : i + 1 < sols.length := by omega
    have hi0 : i < sols.length := by omega
    rw [get_hamming_distances_getD sols i hi1]
    exact get_hamming_distance_eq_diff_positions _ _
      (hlen _ (getD_mem_of_lt sols i [] hi0) _ (getD_mem_of_lt sols (i + 1) [] hi1))

/-- Witness for C1 at a concrete three-sample result: the distances list
has length 2 and its first entry counts the differing positions of the
first two samples. -/
theorem c1_get_hamming_distances_spec_witness :
    (get_hamming_distances [[1, -1], [1, 1], [-1, 1]]).length = 2 ∧
    (get_hamming_distances [[1, -1], [1, 1], [-1, 1]]).getD 0 0 =
      diff_positions [1, -1] [1, 1] := by
  have h := c1_get_hamming_distances_spec [[1, -1], [1, 1], [-1, 1]] 3
    (by decide) (by decide) (by decide)
  exact ⟨h.1, h.2 0 (by decide)⟩

/-- Source: `reads = 1000`, the configured number of reads shared by the
sampling methods of the 16-bit analysis. -/
def reads : ℕ := 1000

/-- Source: the bias dictionary `h` of the 16-bit problem, in source order. -/
def h16 : List (ℕ × ℚ) :=
  [(0, 1), (1, -1), (2, -1), (3, 1), (4, 1), (5, -1), (6, 0), (7, 1),
   (8, 1), (9, -1), (10, -1), (11, 1), (12, 1), (13, 0), (14, -1), (15, 1)]

/-- Source: the coupling dictionary `J` of the 16-bit problem, in source
order. -/
def J16 : List ((ℕ × ℕ) × ℚ) :=
  [((9, 13), -1), ((2, 6), -1), ((8, 13), -1), ((9, 14), -1), ((9, 15), -1),
   ((10, 13), -1), ((5, 13), -1), ((10, 12), -1), ((1, 5), -1), ((10, 14), -1),
   ((0, 5), -1), ((1, 6), -1), ((3, 6), -1), ((1, 7), -1), ((11, 14), -1),
   ((2, 5), -1), ((2, 4), -1), ((6, 14), -1)]

/-- The Ising energy of a spin assignment: the sum of the linear biases
weighted by the spins plus the sum of the couplings weighted by the spin
products, as computed by `dimod.ising_energy(sample, h, J)`. -/
def ising_energy (s : ℕ → ℤ) (h : List (ℕ × ℚ)) (J : List ((ℕ × ℕ) × ℚ)) : ℚ :=
  (h.map (fun p => p.2 * (s p.1 : ℚ))).sum +
    (J.map (fun p => p.2 * (s p.1.1 : ℚ) * (s p.1.2 : ℚ))).sum

/-- Source: `ground_state = {s_i: -1 for s_i in range(16)}` — the all
spins-down assignment (embedded as the constant function, since only
variables 0..15 are ever read). -/
def ground_state : ℕ → ℤ := fun _ => -1

/-- Source: `ground_energy = ising_energy(ground_state, h, J)`. -/
def ground_energy : ℚ := ising_energy ground_state h16 J16

/-- Python's `round(x, 2)`: rounding to two decimal places.  Python rounds
half-to-even on floats while `round` here rounds half up; the two agree at
every non-tie, and no claim rests on a tie. -/
def round2 (x : ℚ) : ℚ := ((round (100 * x) : ℤ) : ℚ) / 100

/-- The arithmetic mean of an array, `arr.mean()`: the sum divided by the
length (0 for the empty array, where numpy yields NaN). -/
def listMean (l : List ℚ) : ℚ := l.sum / (l.length : ℚ)

/-- The population variance of an array, the square of `arr.std()`: the
mean of the squared deviations from the mean. -/
def listVar (l : List ℚ) : ℚ := listMean (l.map (fun x => (x - listMean l) ^ 2))

/-- Modelled from the vendor SDK semantics the notebook relies on:
`answer.first` is the record of lowest energy, the earliest such record in
the record order (for the empty record list, where the SDK raises, a junk
record is returned). -/
def first_record : List Rec → Rec
  | [] => ⟨[], 0, 0⟩
  | r :: rs => rs.foldl (fun acc x => if x.energy < acc.energy then x else acc) r

/-- The minimum of the energies over all returned samples, written from the
specification's words (0 for an empty result set). -/
def min_energy (a : SampleSet) : ℚ :=
  match a.record.map Rec.energy with
  | [] => 0
  | e :: es => es.foldl min e

/-- The result septuple of `analyze`:
`[solutions, energies, hamming_distances, energy_best, ratio, energy_mean,
hamming_mean]`. -/
structure AnalyzeResult where
  solutions : List (List ℤ)
  energies : List ℚ
  hamming_distances : List ℕ
  energy_best : ℚ
  ratio : ℚ
  energy_mean : ℚ
  hamming_mean : ℚ
deriving DecidableEq

/-- Source: the helper `analyze(answer)`, which reads
`answer.record.sample` and `answer.record.energy`, takes
`energy_best = round(answer.first.energy, 2)`,
`ratio = list(answer.record.energy).count(ground_energy)/float(reads)`,
`hamming_distances = get_hamming_distances(solutions)`,
`energy_mean = round(energies.mean(), 2)` and
`hamming_mean = round(hamming_distances.mean(), 2)`. -/
def analyze (answer : SampleSet) : AnalyzeResult :=
  let solutions := answer.record.map Rec.sample
  let energies := answer.record.map Rec.energy
  let energy_best := round2 (first_record answer.record).energy
  let ratio := (energies.count ground_energy : ℚ) / (reads : ℚ)
  let hamming_distances := get_hamming_distances solutions
  let energy_mean := round2 (listMean energies)
  let hamming_mean := round2 (listMean (hamming_distances.map (fun d => (d : ℚ))))
  ⟨solutions, energies, hamming_distances, energy_best, ratio, energy_mean,
    hamming_mean⟩

theorem ground_energy_eq : ground_energy = -20 := by
  norm_num [ground_energy, ising_energy, ground_state, h16, J16]

/-- C2: the ground-state-hit ratio returned by `analyze` is the number of
returned energy records exactly equal to the precomputed ground-state
energy divided by the configured number of reads (1000); it depends only on
the energy records, not on the occurrence counts. -/
theorem c2_analyze_ratio (a : SampleSet) :
    AnalyzeResult.ratio (analyze a) =
      ((a.record.map Rec.energy).count ground_energy : ℚ) / (reads : ℚ) ∧
    (reads : ℚ) = 1000 ∧
    ∀ b : SampleSet, b.record.map Rec.energy = a.record.map Rec.energy →
      AnalyzeResult.ratio (analyze b) = AnalyzeResult.ratio (analyze a) := by
  refine ⟨rfl, by norm_num [reads], ?_⟩
  intro b hb
  have h1 : AnalyzeResult.ratio (analyze b) =
      ((b.record.map Rec.energy).count ground_energy : ℚ) / (reads : ℚ) := rfl
  have h2 : AnalyzeResult.ratio (analyze a) =
      ((a.record.map Rec.energy).count ground_energy : ℚ) / (reads : ℚ) := rfl
  rw [h1, h2, hb]

/-- Witness for C2: two result sets with the same energy records but
opposite occurrence counts get the same ratio. -/
theorem c2_analyze_ratio_witness :
    AnalyzeResult.ratio (analyze ⟨[⟨[-1], -20, 999⟩, ⟨[1], 0, 1⟩]⟩) =
      AnalyzeResult.ratio (analyze ⟨[⟨[-1], -20, 1⟩, ⟨[1], 0, 999⟩]⟩) :=
  (c2_analyze_ratio ⟨[⟨[-1], -20, 1⟩, ⟨[1], 0, 999⟩]⟩).2.2
    ⟨[⟨[-1], -20, 999⟩, ⟨[1], 0, 1⟩]⟩ (by decide)

theorem foldl_pick_energy :
    ∀ (rs : List Rec) (r : Rec),
      (rs.foldl (fun acc x => if x.energy < acc.energy then x else acc) r).energy =
        (rs.map Rec.energy).foldl min r.energy
  | [], _ => rfl
  | x :: rs, r => by
      have ih := foldl_pick_energy rs (if x.energy < r.energy then x else r)
      simp only [List.foldl_cons, List.map_cons] at ih ⊢
      rw [ih]
      congr 1
      by_cases h : x.energy < r.energy
      · simp [h, min_eq_right h.le]
      · simp [h, min_eq_left (le_of_not_lt h)]

theorem foldl_min_eq_self :
    ∀ (es : List ℚ) (e : ℚ), (∀ x ∈ es, e ≤ x) → es.foldl min e = e
  | [], _, _ => rfl
  | x :: es, e, h => by
      have hx : min e x = e := min_eq_left (h x (List.mem_cons_self x es))
      simp only [List.foldl_cons, hx]
      exact foldl_min_eq_self es e (fun y hy => h y (List.mem_cons_of_mem x hy))

/-- C3 counterexample: `energy_best` rounds `answer.first.energy` to two
decimal places, so for a result set whose lowest energy is 1/1000 it
reports 0, not the minimum of the energies. -/
theorem c3_counterexample :
    ¬ (AnalyzeResult.energy_best (analyze ⟨[⟨[1], 1/1000, 1⟩]⟩) =
        min_energy ⟨[⟨[1], 1/1000, 1⟩]⟩) := by
  norm_num [analyze, min_energy, first_record, round2, round_eq]

/-- C3 (amended): `energy_best` equals the minimum of the energies over all
returned samples rounded to two decimal places, and the first record's
energy (read by the printouts) equals that minimum whenever the record is
sorted by nondecreasing energy, as in histogram answer mode. -/
theorem c3_lowest_energy (a : SampleSet) (hne : a.record ≠ []) :
    AnalyzeResult.energy_best (analyze a) = round2 (min_energy a) ∧
    (List.Chain' (fun r s : Rec => r.energy ≤ s.energy) a.record →
      (a.record.map Rec.energy).getD 0 0 = min_energy a) := by
  obtain ⟨l⟩ := a
  cases l with
  | nil => exact absurd rfl hne
  | cons r rs =>
      constructor
      · have hb : AnalyzeResult.energy_best (analyze ⟨r :: rs⟩) =
            round2 (first_record (r :: rs)).energy := rfl
        rw [hb]
        congr 1
        show (rs.foldl (fun acc x => if x.energy < acc.energy then x else acc) r).energy = _
        rw [foldl_pick_energy rs r]
        rfl
      · intro hsort
        have hchain : List.Chain' (· ≤ ·) ((r :: rs).map Rec.energy) := by
          rw [List.chain'_map]
          exact hsort
        have hpair := (List.chain'_iff_pairwise.mp hchain)
        rw [List.map_cons] at hpair
        have hle : ∀ x ∈ rs.map Rec.energy, r.energy ≤ x :=
          (List.pairwise_cons.mp hpair).1
        show r.energy = min_energy ⟨r :: rs⟩
        show r.energy = (rs.map Rec.energy).foldl min r.energy
        rw [foldl_min_eq_self (rs.map Rec.energy) r.energy hle]

/-- Witness for C3 (amended) at a sorted two-record result set. -/
theorem c3_lowest_energy_witness :
    AnalyzeResult.energy_best (analyze ⟨[⟨[], -20, 5⟩, ⟨[], 2, 3⟩]⟩) =
      round2 (min_energy ⟨[⟨[], -20, 5⟩, ⟨[], 2, 3⟩]⟩) ∧
    (([⟨[], -20, 5⟩, ⟨[], 2, 3⟩] : List Rec).map Rec.energy).getD 0 0 =
      min_energy ⟨[⟨[], -20, 5⟩, ⟨[], 2, 3⟩]⟩ := by
  have h := c3_lowest_energy ⟨[⟨[], -20, 5⟩, ⟨[], 2, 3⟩]⟩ (by decide)
  exact ⟨h.1, h.2 (by norm_num [List.chain'_cons, List.chain'_singleton])⟩

/-- The energy array of a result set, `answer.record.energy`: one entry
per returned record. -/
def energies_of (a : SampleSet) : List ℚ := a.record.map Rec.energy

/-- The occurrence-weighted mean over the reads of a request, written from
the claim's words: each record's energy counted once per occurrence,
divided by the total number of occurrences. -/
def weighted_mean (a : SampleSet) : ℚ :=
  (a.record.map (fun r => r.energy * (r.num_occurrences : ℚ))).sum /
    (((a.record.map Rec.num_occurrences).sum : ℕ) : ℚ)

/-- The occurrence-weighted population variance over the reads of a
request, written from the claim's words. -/
def weighted_var (a : SampleSet) : ℚ :=
  (a.record.map
      (fun r => (r.num_occurrences : ℚ) * (r.energy - weighted_mean a) ^ 2)).sum /
    (((a.record.map Rec.num_occurrences).sum : ℕ) : ℚ)

/-- C4 counterexample: `energies.mean()` averages the energy records, so on
a histogram result set holding energy 0 with 999 occurrences and energy 10
with a single occurrence it reports 5, while the mean over the 1000 reads
(each sample counted once per occurrence) is 1/100. -/
theorem c4_counterexample :
    listMean (energies_of ⟨[⟨[], 0, 999⟩, ⟨[], 10, 1⟩]⟩) ≠
      weighted_mean ⟨[⟨[], 0, 999⟩, ⟨[], 10, 1⟩]⟩ := by
  norm_num [listMean, energies_of, weighted_mean]

theorem sum_map_occ_one :
    ∀ (l : List Rec), (∀ r ∈ l, r.num_occurrences = 1) →
      (l.map Rec.num_occurrences).sum = l.length
  | [], _ => rfl
  | r :: l, h => by
      have ih := sum_map_occ_one l (fun x hx => h x (List.mem_cons_of_mem r hx))
      simp [ih, h r (List.mem_cons_self r l), Nat.add_comm]

/-- C4 (amended): the reported average and variance are the plain
record-array mean and variance of the returned energy array; they coincide
with the occurrence-weighted (per-read) mean and variance exactly when
every record counts a single occurrence, as in raw answer mode.  The
reported standard deviation is the square root of the variance on both
sides. -/
theorem c4_energy_mean_var (a : SampleSet)
    (h1 : ∀ r ∈ a.record, r.num_occurrences = 1) :
    listMean (energies_of a) = weighted_mean a ∧
    listVar (energies_of a) = weighted_var a ∧
    AnalyzeResult.energy_mean (analyze a) = round2 (listMean (energies_of a)) := by
  have hnum :
      a.record.map (fun r => r.energy * (r.num_occurrences : ℚ)) =
        a.record.map Rec.energy := by
    apply List.map_congr_left
    intro r hr
    rw [h1 r hr]
    norm_num
  have hden : (a.record.map Rec.num_occurrences).sum = a.record.length :=
    sum_map_occ_one a.record h1
  have hmean : listMean (energies_of a) = weighted_mean a := by
    rw [weighted_mean, hnum, hden, listMean, energies_of, List.length_map]
  refine ⟨hmean, ?_, rfl⟩
  have hnum2 :
      a.record.map (fun r => (r.num_occurrences : ℚ) *
          (r.energy - weighted_mean a) ^ 2) =
        a.record.map (fun r => (r.energy - weighted_mean a) ^ 2) := by
    apply List.map_congr_left
    intro r hr
    rw [h1 r hr]
    norm_num
  have hmap :
      (energies_of a).map (fun x => (x - listMean (energies_of a)) ^ 2) =
        a.record.map (fun r => (r.energy - weighted_mean a) ^ 2) := by
    rw [hmean, energies_of, List.map_map]
    rfl
  rw [listVar, weighted_var, hnum2, hden, ← hmap, listMean, List.length_map,
    energies_of, List.length_map]

/-- Witness for C4 (amended) at a raw-mode result set where every record
has a single occurrence. -/
theorem c4_energy_mean_var_witness :
    listMean (energies_of ⟨[⟨[], -20, 1⟩, ⟨[], 2, 1⟩]⟩) =
      weighted_mean ⟨[⟨[], -20, 1⟩, ⟨[], 2, 1⟩]⟩ ∧
    listVar (energies_of ⟨[⟨[], -20, 1⟩, ⟨[], 2, 1⟩]⟩) =
      weighted_var ⟨[⟨[], -20, 1⟩, ⟨[], 2, 1⟩]⟩ := by
  have h := c4_energy_mean_var ⟨[⟨[], -20, 1⟩, ⟨[], 2, 1⟩]⟩ (by decide)
  exact ⟨h.1, h.2.1⟩

/-- Modelled from the spec: `make_reverse_anneal_schedule` is imported from
`helpers/schedule.py`, which is not among the sources here.  The spec calls
it a piecewise-linear four-point geometry calculation, and the notebook
describes its output as starting at s = 1.0, descending to `s_target`,
pausing there for `hold_time` microseconds, then ramping back up to s = 1.0
with slope `ramp_up_slope`, formatted as a list of [time, s] pairs.  The
descent slope is not fixed by the spec, so it is kept as the extra
parameter `ramp_back_slope`. -/
def make_reverse_anneal_schedule (s_target hold_time ramp_up_slope : ℚ)
    (ramp_back_slope : ℚ := 1) : List (ℚ × ℚ) :=
  let ramp_back_time := (1 - s_target) / ramp_back_slope
  let ramp_up_time := (1 - s_target) / ramp_up_slope
  [(0, 1), (ramp_back_time, s_target),
   (ramp_back_time + hold_time, s_target),
   (ramp_back_time + hold_time + ramp_up_time, 1)]

/-- Source: `max_slope = 1.0/sampler.properties["annealing_time_range"][0]`,
as a function of the solver's minimum annealing time. -/
def max_slope (annealing_time_min : ℚ) : ℚ := 1 / annealing_time_min

/-- Source: `reverse_schedule = make_reverse_anneal_schedule(s_target=0.45,
hold_time=80, ramp_up_slope=max_slope)`, as a function of the solver's
maximum slope and of the helper's descent slope. -/
def reverse_schedule (ms ramp_back_slope : ℚ) : List (ℚ × ℚ) :=
  make_reverse_anneal_schedule 0.45 80 ms ramp_back_slope

/-- Source: `time_total = reverse_schedule[3][0]`. -/
def time_total (ms ramp_back_slope : ℚ) : ℚ :=
  ((reverse_schedule ms ramp_back_slope).getD 3 (0, 0)).1

/-- Source: `pause_schedule = [[0.0, 0.0], [50.0, 0.5],
[time_total-0.5/max_slope, 0.5], [time_total, 1.0]]`, as a function of the
values of `time_total` and `max_slope` in scope. -/
def pause_schedule (tt ms : ℚ) : List (ℚ × ℚ) :=
  [(0, 0), (50, 0.5), (tt - 0.5 / ms, 0.5), (tt, 1)]

/-- The time coordinates of a schedule are strictly increasing. -/
def times_strictly_increasing (sched : List (ℚ × ℚ)) : Prop :=
  List.Chain' (fun p q : ℚ × ℚ => p.1 < q.1) sched

/-- The slope of the line segment between two schedule breakpoints. -/
def segment_slope (p q : ℚ × ℚ) : ℚ := (q.2 - p.2) / (q.1 - p.1)

/-- C5 (spec-modelled): for admissible arguments the schedule builder
returns exactly four [time, s] breakpoints, and the time component of the
breakpoint of index 3 is the total anneal-schedule time, the sum of the
descent, hold and ramp-up durations. -/
theorem c5_schedule_four_points
    (s_target hold_time ramp_up_slope ramp_back_slope : ℚ)
    (h0 : 0 ≤ s_target) (h1 : s_target < 1) (hh : 0 ≤ hold_time)
    (hs : 0 < ramp_up_slope) (hrb : 0 < ramp_back_slope) :
    (make_reverse_anneal_schedule s_target hold_time ramp_up_slope
        ramp_back_slope).length = 4 ∧
    ((make_reverse_anneal_schedule s_target hold_time ramp_up_slope
        ramp_back_slope).getD 3 (0, 0)).1 =
      (1 - s_target) / ramp_back_slope + hold_time +
        (1 - s_target) / ramp_up_slope := by
  exact ⟨rfl, rfl⟩

/-- Witness for C5 at the notebook's configuration `s_target = 0.45`,
`hold_time = 80`, slopes 2 and 1. -/
theorem c5_schedule_four_points_witness :
    (make_reverse_anneal_schedule 0.45 80 2 1).length = 4 ∧
    ((make_reverse_anneal_schedule 0.45 80 2 1).getD 3 (0, 0)).1 =
      (1 - 0.45) / 1 + 80 + (1 - 0.45) / 2 :=
  c5_schedule_four_points 0.45 80 2 1 (by norm_num) (by norm_num)
    (by norm_num) (by norm_num) (by norm_num)

/-- C6: the reverse anneal schedule (spec-modelled builder) and the inline
`pause_schedule` built from the produced `time_total` and `max_slope` both
have strictly increasing time coordinates, for every admissible builder
argument, positive hold time, and positive minimum annealing time. -/
theorem c6_schedules_monotonic
    (s_target hold_time ramp_up_slope ramp_back_slope r : ℚ)
    (h0 : 0 ≤ s_target) (h1 : s_target < 1) (hh : 0 < hold_time)
    (hs : 0 < ramp_up_slope) (hrb : 0 < ramp_back_slope) (hr : 0 < r) :
    times_strictly_increasing
      (make_reverse_anneal_schedule s_target hold_time ramp_up_slope
        ramp_back_slope) ∧
    times_strictly_increasing
      (pause_schedule (time_total (max_slope r) ramp_back_slope)
        (max_slope r)) := by
  have hms : 0 < max_slope r := by
    rw [max_slope]
    positivity
  have h1s : (0:ℚ) < 1 - s_target := by linarith
  constructor
  · simp only [times_strictly_increasing, make_reverse_anneal_schedule,
      List.chain'_cons, List.chain'_singleton, and_true]
    refine ⟨div_pos h1s hrb, by linarith, ?_⟩
    have := div_pos h1s hs
    linarith
  · have htt : time_total (max_slope r) ramp_back_slope =
        (1 - 0.45) / ramp_back_slope + 80 + (1 - 0.45) / max_slope r := rfl
    simp only [times_strictly_increasing, pause_schedule, List.chain'_cons,
      List.chain'_singleton, and_true, htt]
    have ha : (0:ℚ) < (1 - 0.45) / ramp_back_slope :=
      div_pos (by norm_num) hrb
    have hb : (0:ℚ) < (0.5:ℚ) / max_slope r := div_pos (by norm_num) hms
    have hc : (0.5:ℚ) / max_slope r < (1 - 0.45 : ℚ) / max_slope r :=
      (div_lt_div_iff_of_pos_right hms).mpr (by norm_num)
    refine ⟨by norm_num, by linarith, by linarith⟩

/-- Witness for C6 at the notebook's configuration with descent slope 1 and
minimum annealing time 1/2 microsecond. -/
theorem c6_schedules_monotonic_witness :
    times_strictly_increasing (make_reverse_anneal_schedule 0.45 80 2 1) ∧
    times_strictly_increasing
      (pause_schedule (time_total (max_slope (1/2)) 1) (max_slope (1/2))) :=
  c6_schedules_monotonic 0.45 80 2 1 (1/2) (by norm_num) (by norm_num)
    (by norm_num) (by norm_num) (by norm_num) (by norm_num)

/-- C10: in the inline `pause_schedule`, for every time_total and every
positive minimum annealing time (hence positive `max_slope`), the final
ramp segment from breakpoint 2 to breakpoint 3 has slope exactly
`max_slope`. -/
theorem c10_pause_ramp_slope (tt r : ℚ) (hr : 0 < r) :
    segment_slope ((pause_schedule tt (max_slope r)).getD 2 (0, 0))
        ((pause_schedule tt (max_slope r)).getD 3 (0, 0)) = max_slope r := by
  have hr0 : r ≠ 0 := ne_of_gt hr
  simp only [segment_slope, pause_schedule, max_slope, List.getD_cons_succ,
    List.getD_cons_zero]
  field_simp
  ring_nf
  exact Or.inl trivial

/-- Witness for C10 at `time_total = 100` and minimum annealing time 1/2,
where the maximum slope is 2. -/
theorem c10_pause_ramp_slope_witness :
    segment_slope ((pause_schedule 100 (max_slope (1/2))).getD 2 (0, 0))
        ((pause_schedule 100 (max_slope (1/2))).getD 3 (0, 0)) =
      max_slope (1/2) :=
  c10_pause_ramp_slope 100 (1/2) (by norm_num)

/-- The fields of `TilingComposite` read by the notebook: the number of
tiles found on the QPU and the list of candidate embeddings (each an
assignment of problem variables to qubit chains). -/
structure TilingInfo where
  num_tiles : ℕ
  embeddings : List (List (ℕ × List ℕ))

/-- Source: the guard
`if tiled_sampler.num_tiles: sampler_embedded = FixedEmbeddingComposite(sampler, embedding=tiled_sampler.embeddings[0]) else: print(...)`.
When no tile is found the guard only prints, so the name
`sampler_embedded` stays unbound (`none`); otherwise it is bound to the
composite built from the first embedding. -/
def sampler_embedded_of (t : TilingInfo) : Option (List (ℕ × List ℕ)) :=
  if t.num_tiles ≠ 0 then some (t.embeddings.getD 0 []) else none

/-- Source: a sampling cell of the notebook, such as
`answer = sampler_embedded.sample_ising(...)` followed by
`data.append(analyze(answer))`: the straight-line cell feeds a successful
vendor result to `analyze` and contains no handler, so it is embedded in
the exception monad as a plain bind. -/
def sampling_cell (sample_result : Except String SampleSet) :
    Except String AnalyzeResult :=
  sample_result.bind (fun answer => Except.ok (analyze answer))

/-- C7: failures raised by vendor SDK calls pass through the notebook's
straight-line cells unhandled and untransformed, and the only conditional
guard leaves the embedded sampler undefined (rather than an error value)
when no tile is found, binding it to the first embedding otherwise. -/
theorem c7_failures_propagate :
    (∀ e : String, sampling_cell (Except.error e) = Except.error e) ∧
    (∀ t : TilingInfo, t.num_tiles = 0 → sampler_embedded_of t = none) ∧
    (∀ t : TilingInfo, t.num_tiles ≠ 0 →
      sampler_embedded_of t = some (t.embeddings.getD 0 [])) := by
  refine ⟨fun e => rfl, fun t ht => ?_, fun t ht => ?_⟩
  · simp [sampler_embedded_of, ht]
  · simp [sampler_embedded_of, ht]

/-- Witness for C7: a connection error surfaces unchanged, and a tiling
with no tiles leaves the embedded sampler undefined. -/
theorem c7_failures_propagate_witness :
    sampling_cell (Except.error "connection error") =
      Except.error "connection error" ∧
    sampler_embedded_of ⟨0, []⟩ = none :=
  ⟨c7_failures_propagate.1 "connection error",
    c7_failures_propagate.2.1 ⟨0, []⟩ rfl⟩

/-- Source: `flip_bits(sample, spin_bits)` updates the mapping with
`{bit: -sample[bit] for bit in spin_bits}` and returns it: the entries
named in `spin_bits` are negated and every other entry is unchanged.
Samples are embedded as total assignments of a spin to each variable. -/
def flip_bits (sample : ℕ → ℤ) (spin_bits : Finset ℕ) : ℕ → ℤ :=
  fun bit => if bit ∈ spin_bits then -sample bit else sample bit

/-- The Hamming distance between two variable assignments over a key set:
the number of keys at which they hold different values. -/
def dict_hamming_distance (keys : Finset ℕ) (s t : ℕ → ℤ) : ℕ :=
  (keys.filter (fun k => s k ≠ t k)).card

/-- C8: `flip_bits` negates exactly the entries named in `spin_bits` and
leaves every other entry unchanged; applying it twice with the same bit
set restores the original sample, and for a spin-valued sample the Hamming
distance between input and output over any key set containing the flipped
bits is the number of bits flipped. -/
theorem c8_flip_bits (sample : ℕ → ℤ) (spin_bits keys : Finset ℕ) :
    flip_bits (flip_bits sample spin_bits) spin_bits = sample ∧
    (∀ b ∈ spin_bits, flip_bits sample spin_bits b = -(sample b)) ∧
    (∀ b, b ∉ spin_bits → flip_bits sample spin_bits b = sample b) ∧
    (spin_bits ⊆ keys → (∀ b ∈ spin_bits, sample b = 1 ∨ sample b = -1) →
      dict_hamming_distance keys sample (flip_bits sample spin_bits) =
        spin_bits.card) := by
  refine ⟨?_, ?_, ?_, ?_⟩
  · funext b
    by_cases h : b ∈ spin_bits <;> simp [flip_bits, h]
  · intro b hb
    simp [flip_bits, hb]
  · intro b hb
    simp [flip_bits, hb]
  · intro hsub hspin
    unfold dict_hamming_distance
    have hfe : ∀ k ∈ keys,
        (sample k ≠ flip_bits sample spin_bits k) ↔ k ∈ spin_bits := by
      intro k _
      by_cases h : k ∈ spin_bits
      · rcases hspin k h with h1 | h1 <;> simp [flip_bits, h, h1]
      · simp [flip_bits, h]
    rw [Finset.filter_congr hfe, Finset.filter_mem_eq_inter,
      Finset.inter_eq_right.mpr hsub]

/-- Witness for C8: flipping six bits of the all-spins-down ground state
moves it Hamming distance six away. -/
theorem c8_flip_bits_witness :
    dict_hamming_distance (Finset.range 16) ground_state
        (flip_bits ground_state {1, 4, 7, 10, 12, 15}) =
      ({1, 4, 7, 10, 12, 15} : Finset ℕ).card :=
  (c8_flip_bits ground_state {1, 4, 7, 10, 12, 15} (Finset.range 16)).2.2.2
    (by decide) (fun b _ => Or.inr rfl)

/-- Python's `int()` applied to a nonnegative-or-negative rational:
truncation toward zero. -/
def python_int (q : ℚ) : ℤ := if q < 0 then -Int.floor (-q) else Int.floor q

/-- Source: `i5 = int(5.0/95*len(forward_answer))`, as a function of the
number of returned records. -/
def i5 (n : ℕ) : ℤ := python_int ((5 / 95 : ℚ) * n)

/-- C9: for every nonempty forward-anneal result set of n records, the
index i5 selecting the reverse-anneal initial state satisfies
0 ≤ i5 < n, so the record lookup never goes out of bounds. -/
theorem c9_i5_in_bounds (n : ℕ) (h : 1 ≤ n) : 0 ≤ i5 n ∧ i5 n < n := by
  have hq : (0:ℚ) ≤ (5 / 95 : ℚ) * n := by positivity
  have hn : (1:ℚ) ≤ (n:ℚ) := by exact_mod_cast h
  have hlt : (5 / 95 : ℚ) * n < ((n:ℤ):ℚ) := by
    push_cast
    nlinarith
  rw [i5, python_int, if_neg (not_lt.mpr hq)]
  exact ⟨Int.floor_nonneg.mpr hq, Int.floor_lt.mpr hlt⟩

/-- Witness for C9 at a full histogram of 1000 records, where i5 = 52. -/
theorem c9_i5_in_bounds_witness : 0 ≤ i5 1000 ∧ i5 1000 < 1000 :=
  c9_i5_in_bounds 1000 (by norm_num)

end ReverseAnnealing
